import Mathlib

/-!
Shallow embedding of the `baskets` repository's holdings-collection pipeline
(`baskets/collect.py`), together with the parts of the repository's `Table`
abstraction that the pipeline uses.

Modelling conventions:
* Python floats are embedded as exact rationals (`ℚ`).
* A table cell is either a string or a number; see `Value`.
* `logging.error` diagnostics are modelled as a returned list of strings.
* A Python `ZeroDivisionError` is modelled by an `Option` result being `none`.
-/

set_option autoImplicit false

/-- A cell value: issuer holdings files mix strings (tickers, asset types,
identifiers) and numbers (fractions, amounts). -/
inductive Value where
  | str : String → Value
  | num : ℚ → Value
deriving DecidableEq, Repr

/-- Numeric reading of a cell, as used when a cell is consumed
arithmetically (`row.fraction`); non-numeric cells read as `0`. -/
def Value.toNum : Value → ℚ
  | Value.num q => q
  | Value.str _ => 0

/-- Modelled from the spec: the repository's `Table` class
(`baskets/table.py` is not under `src/`).  Per spec §3, a `Table` is an
ordered list of unique column names and an ordered sequence of rows, each
row a tuple aligned to the column list.  Declared element types are
advisory (used only for CSV serialization) and are not modelled. -/
structure Table where
  columns : List String
  rows : List (List Value)
deriving DecidableEq, Repr

/-- Index of a column name in a column list (first occurrence), the
position used for row access by column name. -/
def colIdx (c : String) : List String → Nat
  | [] => 0
  | c' :: cs => if c' = c then 0 else colIdx c cs + 1

/-- Modelled from the spec (§4.1 `values`): the column's values as a
sequence, preserving row order. -/
def Table.values (t : Table) (c : String) : List Value :=
  t.rows.map fun r => r.getD (colIdx c t.columns) (Value.str "")

/-- Apply `f` to the element at position `i` of a list, leaving the other
elements unchanged. -/
def mapAt {α : Type} (f : α → α) : Nat → List α → List α
  | _, [] => []
  | 0, x :: xs => f x :: xs
  | Nat.succ n, x :: xs => x :: mapAt f n xs

/-- Modelled from the spec (§4.1 `map`): replaces a column's values by
applying `f` to each row's value in that column. -/
def Table.map (t : Table) (c : String) (f : Value → Value) : Table :=
  ⟨t.columns, t.rows.map (mapAt f (colIdx c t.columns))⟩

/-- Modelled from the spec (§4.1 `create`): appends a new column computed
per row from a function of the existing row. -/
def Table.create (t : Table) (c : String) (f : List Value → Value) : Table :=
  ⟨t.columns ++ [c], t.rows.map fun r => r ++ [f r]⟩

/-- Modelled from the spec (§4.1 `select`): restricts (and reorders) the
table to exactly the named columns, in the given order. -/
def Table.select (t : Table) (cols : List String) : Table :=
  ⟨cols, t.rows.map fun r => cols.map fun c => r.getD (colIdx c t.columns) (Value.str "")⟩

/-- Modelled from the spec (§4.1 `delete`): returns a table lacking the
named columns (the remaining columns keep their order). -/
def Table.delete (t : Table) (cols : List String) : Table :=
  t.select (t.columns.filter fun c => decide (c ∉ cols))

/-- Modelled from the spec (§4.1 `head`): the first `n` rows. -/
def Table.head (t : Table) (n : Nat) : Table :=
  ⟨t.columns, t.rows.take n⟩

/-- Modelled from the spec (§4.1 `concat`): schema of the first table,
rows of all tables in order (the driver forces uniform schemas first). -/
def concatTables : List Table → Table
  | [] => ⟨[], []⟩
  | t :: ts => ⟨t.columns, t.rows ++ (ts.map Table.rows).flatten⟩

/-- Spec §3 table invariant: every row's arity equals the column count. -/
def Table.WF (t : Table) : Prop :=
  ∀ r ∈ t.rows, r.length = t.columns.length

instance (t : Table) : Decidable t.WF := by
  unfold Table.WF; infer_instance

/-- `collect.py` line 46: the allowed asset types. -/
def ASSTYPES : List String := ["Equity", "FixedIncome", "ShortTerm"]

/-- `collect.py` line 47: the identifier columns. -/
def IDCOLUMNS : List String := ["name", "ticker", "sedol", "isin", "cusip"]

/-- `collect.py` line 48: the canonical full-table column set. -/
def COLUMNS : List String := ["etf", "account", "fraction", "asstype"] ++ IDCOLUMNS

/-- Sum of the `fraction` column (`sum([row.fraction for row in table])`). -/
def fractionTotal (t : Table) : ℚ :=
  ((t.values "fraction").map Value.toNum).sum

/-- `collect.py` lines 37-43, `normalize_holdings_table`: logs an error
when the fraction total is outside `(0.98, 1.02)`, then rescales every
fraction by `scale = 1/total`.  The first component is the list of logged
diagnostics; the second is `none` exactly when `total = 0`, modelling the
`ZeroDivisionError` raised by `1./total`. -/
def normalize_holdings_table (t : Table) : List String × Option Table :=
  let total := fractionTotal t
  (if 0.98 < total ∧ total < 1.02 then [] else ["Total weight seems invalid: " ++ toString total],
   if total = 0 then none
   else some (t.map "fraction" fun f => Value.num (f.toNum * (1 / total))))

/-- Is a cell one of the allowed asset types?  (In the source, a
membership test of the cell's value in the string set `ASSTYPES`.) -/
def isAllowedAsstype : Value → Bool
  | Value.str s => decide (s ∈ ASSTYPES)
  | Value.num _ => false

/-- `collect.py` lines 51-65, `check_holdings`: the four assertions, as a
boolean that is `false` exactly when some assertion fails. -/
def check_holdings (holdings : Table) : Bool :=
  let actual := holdings.columns
  let allowed := "asstype" :: "fraction" :: IDCOLUMNS
  decide (∀ c ∈ actual, c ∈ allowed) &&
  (decide ("asstype" ∈ actual) && decide ("fraction" ∈ actual)) &&
  decide (∃ c ∈ IDCOLUMNS, c ∈ actual) &&
  (holdings.values "asstype").all isAllowedAsstype

/-- One step of the `add_missing_columns` loop body
(`collect.py` lines 69-71). -/
def addIdColumn (t : Table) (column : String) : Table :=
  if column ∈ t.columns then t else t.create column fun _ => Value.str ""

/-- The `add_missing_columns` loop over a list of columns. -/
def addCols : List String → Table → Table
  | [], t => t
  | c :: cs, t => addCols cs (addIdColumn t c)

/-- `collect.py` lines 68-72, `add_missing_columns`. -/
def add_missing_columns (tbl : Table) : Table :=
  addCols IDCOLUMNS tbl

/-- A portfolio position row (`assets` rows in `main`):
`ticker, account, issuer, price, number`.  A falsy Python issuer
(`None` or `""`) is modelled as `none`. -/
structure Position where
  ticker : String
  account : String
  issuer : Option String
  price : ℚ
  number : ℚ
deriving DecidableEq, Repr

/-- Outcome of the external collaborators on the issuer branch of `main`
(lines 125-142): the issuer registry lookup, the latest-file lookup, the
`parse` attribute check, and the parse itself. -/
inductive FetchOutcome where
  | missingIssuer : FetchOutcome
  | missingFile : FetchOutcome
  | noParse : FetchOutcome
  | parsed : Table → FetchOutcome
deriving DecidableEq, Repr

/-- What one iteration of the position loop contributes: a skipped row, a
run-aborting assertion failure (`check_holdings`), or a finished table. -/
inductive RowOutcome where
  | skipped : RowOutcome
  | aborted : RowOutcome
  | table : Table → RowOutcome
deriving DecidableEq, Repr

/-- `collect.py` lines 121-123: the synthetic single-row table for a
position with no look-through issuer. -/
def syntheticHoldings (row : Position) : Table :=
  ⟨["fraction", "asstype", "ticker"],
   [[Value.num 1, Value.str "Equity", Value.str row.ticker]]⟩

/-- `collect.py` lines 145-155: add missing id columns, attach the `etf`
and `account` provenance columns, select the canonical columns, convert
`fraction` to a dollar `amount`, and drop `fraction`. -/
def finishHoldings (row : Position) (holdings : Table) : Table :=
  let h1 := add_missing_columns holdings
  let h2 := h1.create "etf" fun _ => Value.str row.ticker
  let h3 := h2.create "account" fun _ => Value.str row.account
  let h4 := h3.select COLUMNS
  let dollar_amount := row.number * row.price
  let h5 := h4.create "amount" fun r =>
    Value.num ((r.getD (colIdx "fraction" h4.columns) (Value.str "")).toNum * dollar_amount)
  h5.delete ["fraction"]

/-- `collect.py` lines 114-157: one iteration of the position loop.  The
second component is the list of `logging.error` diagnostics emitted by the
iteration.  `normalize_holdings_table` is not invoked anywhere in this
loop, mirroring the source. -/
def processPosition (ignoreShorts : Bool) (fetch : Position → FetchOutcome)
    (row : Position) : RowOutcome × List String :=
  if row.number < 0 ∧ ignoreShorts = true then (RowOutcome.skipped, [])
  else
    match row.issuer with
    | none => (RowOutcome.table (finishHoldings row (syntheticHoldings row)), [])
    | some iss =>
      match fetch row with
      | FetchOutcome.missingIssuer => (RowOutcome.skipped, ["Missing issuer " ++ iss])
      | FetchOutcome.missingFile => (RowOutcome.skipped, ["Missing file for " ++ row.ticker])
      | FetchOutcome.noParse =>
          (RowOutcome.skipped, ["Parser for " ++ row.ticker ++ " is not implemented"])
      | FetchOutcome.parsed holdings =>
          if check_holdings holdings then
            (RowOutcome.table (finishHoldings row holdings), [])
          else (RowOutcome.aborted, [])

/-- The position loop of `main` over a list of positions, collecting the
per-position tables in order (`alltables`); `none` models an
`AssertionError` from `check_holdings` aborting the run. -/
def collectTables (ignoreShorts : Bool) (fetch : Position → FetchOutcome) :
    List Position → Option (List Table)
  | [] => some []
  | row :: rest =>
    match (processPosition ignoreShorts fetch row).1 with
    | RowOutcome.skipped => collectTables ignoreShorts fetch rest
    | RowOutcome.aborted => none
    | RowOutcome.table t =>
        Option.map (fun ts => t :: ts) (collectTables ignoreShorts fetch rest)

/-- Sum of the `amount` column of a table. -/
def amountTotal (t : Table) : ℚ :=
  ((t.values "amount").map Value.toNum).sum

/-- Total dollar amount contributed by one loop iteration. -/
def contribution (p : RowOutcome × List String) : ℚ :=
  match p.1 with
  | RowOutcome.table t => amountTotal t
  | _ => 0

/-- Running cumulative sums of a list (numpy `cumsum`), starting from an
accumulator. -/
def cumsum (acc : ℚ) : List ℚ → List ℚ
  | [] => []
  | x :: xs => (acc + x) :: cumsum (acc + x) xs

/-- `collect.py` lines 174-179: the number of report rows kept,
`len(amount[cum_amount < total_amount * tail])` with `tail = 0.98` —
rows `0 ≤ i < headsize amounts` are then printed via `head`. -/
def headsize (amounts : List ℚ) : Nat :=
  ((cumsum 0 amounts).filter fun c => decide (c < amounts.sum * 0.98)).length

/-! ### Column-index and row-access lemmas -/

theorem colIdx_append_of_mem {c : String} {l : List String} (l2 : List String)
    (h : c ∈ l) : colIdx c (l ++ l2) = colIdx c l := by
  induction l with
  | nil => cases h
  | cons x xs ih =>
    by_cases hx : x = c
    · simp [colIdx, hx]
    · rcases List.mem_cons.mp h with h1 | h1
      · exact absurd h1.symm hx
      · simp [colIdx, hx, ih h1]

theorem colIdx_lt_length {c : String} {l : List String} (h : c ∈ l) :
    colIdx c l < l.length := by
  induction l with
  | nil => cases h
  | cons x xs ih =>
    by_cases hx : x = c
    · simp [colIdx, hx]
    · rcases List.mem_cons.mp h with h1 | h1
      · exact absurd h1.symm hx
      · simpa [colIdx, hx] using ih h1

theorem colIdx_append_of_not_mem {c : String} {l : List String} (l2 : List String)
    (h : c ∉ l) : colIdx c (l ++ l2) = l.length + colIdx c l2 := by
  induction l with
  | nil => simp
  | cons x xs ih =>
    have hx : x ≠ c := fun he => h (he ▸ List.mem_cons_self x xs)
    have hxs : c ∉ xs := fun hm => h (List.mem_cons_of_mem x hm)
    rw [List.cons_append]
    simp only [colIdx]
    rw [if_neg hx, ih hxs, List.length_cons]
    omega

theorem getD_map_colIdx {c : String} {cols : List String} (g : String → Value)
    (d : Value) (h : c ∈ cols) :
    (cols.map g).getD (colIdx c cols) d = g c := by
  induction cols with
  | nil => cases h
  | cons x xs ih =>
    by_cases hx : x = c
    · simp [colIdx, hx]
    · rcases List.mem_cons.mp h with h1 | h1
      · exact absurd h1.symm hx
      · simp only [colIdx, List.map_cons]
        rw [if_neg hx, List.getD_cons_succ, ih h1]

theorem mapAt_nil {α : Type} (f : α → α) (i : Nat) : mapAt f i [] = [] := by
  cases i <;> rfl

theorem mapAt_length {α : Type} (f : α → α) : ∀ (i : Nat) (l : List α),
    (mapAt f i l).length = l.length
  | i, [] => by rw [mapAt_nil]
  | 0, _ :: _ => rfl
  | Nat.succ n, x :: xs => by simp [mapAt, mapAt_length f n xs]

theorem mapAt_getD_lt {α : Type} (f : α → α) (d : α) :
    ∀ (i : Nat) (l : List α), i < l.length → (mapAt f i l).getD i d = f (l.getD i d)
  | _, [], h => by cases h
  | 0, x :: xs, _ => rfl
  | Nat.succ n, x :: xs, h => by
    simpa [mapAt] using mapAt_getD_lt f d n xs (by simpa using h)

theorem mapAt_getD_ge {α : Type} (f : α → α) (d : α) (i : Nat) (l : List α)
    (h : l.length ≤ i) : (mapAt f i l).getD i d = d := by
  apply List.getD_eq_default
  rw [mapAt_length]
  exact h

/-! ### Well-formedness: rows have the arity of the column list -/

theorem WF_create {t : Table} (hwf : t.WF) (c : String) (f : List Value → Value) :
    (t.create c f).WF := by
  intro r hr
  simp only [Table.create, List.mem_map] at hr
  rcases hr with ⟨r0, hr0, rfl⟩
  simp [Table.create, hwf r0 hr0]

theorem WF_select (t : Table) (cols : List String) : (t.select cols).WF := by
  intro r hr
  simp only [Table.select, List.mem_map] at hr
  rcases hr with ⟨r0, _, rfl⟩
  simp [Table.select]

theorem WF_addIdColumn {t : Table} (hwf : t.WF) (c : String) :
    (addIdColumn t c).WF := by
  unfold addIdColumn
  by_cases h : c ∈ t.columns
  · simpa [h] using hwf
  · simpa [h] using WF_create hwf c _

theorem WF_addCols {t : Table} (cs : List String) (hwf : t.WF) :
    (addCols cs t).WF := by
  induction cs generalizing t with
  | nil => exact hwf
  | cons c cs ih => exact ih (WF_addIdColumn hwf c)

/-! ### How the operations act on a column's value sequence -/

theorem values_select {t : Table} {cols : List String} {c : String} (h : c ∈ cols) :
    (t.select cols).values c = t.values c := by
  simp only [Table.values, Table.select, List.map_map]
  apply List.map_congr_left
  intro r _
  simp only [Function.comp_apply]
  exact getD_map_colIdx (fun c2 => r.getD (colIdx c2 t.columns) (Value.str "")) _ h

theorem values_create_of_mem {t : Table} {c : String} (hwf : t.WF)
    (h : c ∈ t.columns) (c2 : String) (f : List Value → Value) :
    (t.create c2 f).values c = t.values c := by
  simp only [Table.values, Table.create, List.map_map, colIdx_append_of_mem _ h]
  apply List.map_congr_left
  intro r hr
  simp only [Function.comp_apply]
  exact List.getD_append _ _ _ _ (by rw [hwf r hr]; exact colIdx_lt_length h)

theorem values_create_self {t : Table} {c : String} (hwf : t.WF)
    (h : c ∉ t.columns) (f : List Value → Value) :
    (t.create c f).values c = t.rows.map f := by
  have hidx : colIdx c (t.columns ++ [c]) = t.columns.length := by
    rw [colIdx_append_of_not_mem _ h]; simp [colIdx]
  simp only [Table.values, Table.create, List.map_map, hidx]
  apply List.map_congr_left
  intro r hr
  simp only [Function.comp_apply]
  rw [← hwf r hr, List.getD_append_right _ _ _ _ (le_refl _)]
  simp

/-! ### `add_missing_columns` structure lemmas -/

theorem mem_columns_addIdColumn {t : Table} {c : String} (h : c ∈ t.columns)
    (c2 : String) : c ∈ (addIdColumn t c2).columns := by
  unfold addIdColumn
  by_cases h2 : c2 ∈ t.columns
  · rw [if_pos h2]
    exact h
  · simp [h2, Table.create, List.mem_append, h]

theorem mem_columns_addIdColumn_self (t : Table) (c : String) :
    c ∈ (addIdColumn t c).columns := by
  unfold addIdColumn
  by_cases h : c ∈ t.columns
  · rw [if_pos h]
    exact h
  · simp [h, Table.create]

theorem mem_columns_addCols_of_mem {t : Table} {c : String} (cs : List String)
    (h : c ∈ t.columns) : c ∈ (addCols cs t).columns := by
  induction cs generalizing t with
  | nil => exact h
  | cons c2 cs ih => exact ih (mem_columns_addIdColumn h c2)

theorem mem_columns_addCols {t : Table} {c : String} {cs : List String}
    (h : c ∈ cs) : c ∈ (addCols cs t).columns := by
  induction cs generalizing t with
  | nil => cases h
  | cons c2 cs ih =>
    by_cases h1 : c = c2
    · subst h1
      exact mem_columns_addCols_of_mem cs (mem_columns_addIdColumn_self t c)
    · rcases List.mem_cons.mp h with h2 | h2
      · exact absurd h2 h1
      · exact ih h2

theorem addCols_noop {t : Table} {cs : List String} (h : ∀ c ∈ cs, c ∈ t.columns) :
    addCols cs t = t := by
  induction cs with
  | nil => rfl
  | cons c2 cs ih =>
    have h2 : addIdColumn t c2 = t := by
      unfold addIdColumn
      rw [if_pos (h c2 (List.mem_cons_self c2 cs))]
    simp only [addCols, h2]
    exact ih fun c hc => h c (List.mem_cons_of_mem c2 hc)

theorem not_mem_columns_addIdColumn {t : Table} {c c2 : String} (h : c ∉ t.columns)
    (hne : c ≠ c2) : c ∉ (addIdColumn t c2).columns := by
  unfold addIdColumn
  by_cases h2 : c2 ∈ t.columns
  · simpa [h2] using h
  · simp [h2, Table.create, List.mem_append, h, hne]

theorem values_addIdColumn_of_mem {t : Table} {c : String} (hwf : t.WF)
    (h : c ∈ t.columns) (c2 : String) :
    (addIdColumn t c2).values c = t.values c := by
  unfold addIdColumn
  by_cases h2 : c2 ∈ t.columns
  · simp [h2]
  · rw [if_neg h2]
    exact values_create_of_mem hwf h c2 _

theorem values_addCols_of_mem {t : Table} {c : String} (cs : List String) (hwf : t.WF)
    (h : c ∈ t.columns) : (addCols cs t).values c = t.values c := by
  induction cs generalizing t with
  | nil => rfl
  | cons c2 cs ih =>
    simp only [addCols]
    rw [ih (WF_addIdColumn hwf c2) (mem_columns_addIdColumn h c2),
      values_addIdColumn_of_mem hwf h c2]

theorem values_addCols_blank {t : Table} {c : String} {cs : List String} (hwf : t.WF)
    (hnot : c ∉ t.columns) (h : c ∈ cs) :
    ∀ v ∈ (addCols cs t).values c, v = Value.str "" := by
  induction cs generalizing t with
  | nil => cases h
  | cons c2 cs ih =>
    simp only [addCols]
    by_cases he : c = c2
    · subst he
      have hcr : addIdColumn t c = t.create c fun _ => Value.str "" := by
        unfold addIdColumn
        rw [if_neg hnot]
      rw [hcr, values_addCols_of_mem cs (WF_create hwf c _) (by simp [Table.create]),
        values_create_self hwf hnot _]
      intro v hv
      rcases List.mem_map.mp hv with ⟨r, _, rfl⟩
      rfl
    · have h1 : c ∈ cs := by
        rcases List.mem_cons.mp h with h2 | h2
        · exact absurd h2 he
        · exact h2
      exact ih (WF_addIdColumn hwf c2) (not_mem_columns_addIdColumn hnot he) h1

/-! ### The fraction column through the pipeline fix-up steps -/

theorem fractionTotal_select {t : Table} {cols : List String} (h : "fraction" ∈ cols) :
    fractionTotal (t.select cols) = fractionTotal t := by
  unfold fractionTotal
  rw [values_select h]

theorem fractionTotal_create {t : Table} (hwf : t.WF) (h : "fraction" ∈ t.columns)
    (c : String) (f : List Value → Value) :
    fractionTotal (t.create c f) = fractionTotal t := by
  unfold fractionTotal
  rw [values_create_of_mem hwf h c f]

theorem fractionTotal_addCols {t : Table} (cs : List String) (hwf : t.WF)
    (h : "fraction" ∈ t.columns) : fractionTotal (addCols cs t) = fractionTotal t := by
  unfold fractionTotal
  rw [values_addCols_of_mem cs hwf h]

theorem amountTotal_amount_step (t : Table) (hcols : t.columns = COLUMNS)
    (hwf : t.WF) (q : ℚ) :
    amountTotal ((t.create "amount" fun r =>
        Value.num ((r.getD (colIdx "fraction" t.columns) (Value.str "")).toNum * q)).delete
      ["fraction"]) = fractionTotal t * q := by
  have hc1 : (t.create "amount" fun r =>
      Value.num ((r.getD (colIdx "fraction" t.columns) (Value.str "")).toNum * q)).columns
      = COLUMNS ++ ["amount"] := by
    simp [Table.create, hcols]
  rw [Table.delete, hc1]
  have hkept : (COLUMNS ++ ["amount"]).filter (fun c => decide (c ∉ ["fraction"]))
      = ["etf", "account", "asstype", "name", "ticker", "sedol", "isin", "cusip", "amount"] := by
    decide
  rw [hkept]
  unfold amountTotal
  rw [values_select (by decide), values_create_self hwf (by rw [hcols]; decide) _,
    List.map_map]
  unfold fractionTotal Table.values
  rw [List.map_map, ← List.sum_map_mul_right]
  apply congrArg List.sum
  apply List.map_congr_left
  intro r _
  simp [Function.comp, Value.toNum]

theorem amountTotal_finishHoldings (row : Position) (h : Table) (hwf : h.WF)
    (hmem : "fraction" ∈ h.columns) :
    amountTotal (finishHoldings row h) = fractionTotal h * (row.number * row.price) := by
  have h1wf : (add_missing_columns h).WF := WF_addCols IDCOLUMNS hwf
  have h1mem : "fraction" ∈ (add_missing_columns h).columns :=
    mem_columns_addCols_of_mem IDCOLUMNS hmem
  have h2wf := WF_create h1wf "etf" fun _ => Value.str row.ticker
  have h2mem : "fraction" ∈
      ((add_missing_columns h).create "etf" fun _ => Value.str row.ticker).columns := by
    simp [Table.create, h1mem]
  simp only [finishHoldings]
  set t3 := ((add_missing_columns h).create "etf" fun _ => Value.str row.ticker).create
    "account" fun _ => Value.str row.account with ht3
  rw [amountTotal_amount_step (t3.select COLUMNS) rfl (WF_select t3 COLUMNS),
    fractionTotal_select (by decide), ht3, fractionTotal_create h2wf h2mem,
    fractionTotal_create h1wf h1mem]
  unfold add_missing_columns
  rw [fractionTotal_addCols IDCOLUMNS hwf hmem]

/-! ### Rescaling the fraction column -/

theorem fractionTotal_map_num (t : Table) (q : ℚ) :
    fractionTotal (t.map "fraction" fun v => Value.num (v.toNum * q))
      = fractionTotal t * q := by
  unfold fractionTotal Table.map Table.values
  simp only [List.map_map]
  rw [← List.sum_map_mul_right]
  apply congrArg List.sum
  apply List.map_congr_left
  intro r _
  simp only [Function.comp_apply]
  rcases Nat.lt_or_ge (colIdx "fraction" t.columns) r.length with hlt | hge
  · rw [mapAt_getD_lt _ _ _ _ hlt]
    simp [Value.toNum]
  · rw [mapAt_getD_ge _ _ _ _ hge, List.getD_eq_default _ _ hge]
    simp [Value.toNum]

/-! ### Cumulative sums and the report truncation -/

theorem cumsum_length (acc : ℚ) (l : List ℚ) : (cumsum acc l).length = l.length := by
  induction l generalizing acc with
  | nil => rfl
  | cons x xs ih => simp [cumsum, ih]

theorem le_of_mem_cumsum {l : List ℚ} (h : ∀ a ∈ l, 0 ≤ a) (acc : ℚ) :
    ∀ y ∈ cumsum acc l, acc ≤ y := by
  induction l generalizing acc with
  | nil =>
    intro y hy
    cases hy
  | cons x xs ih =>
    intro y hy
    rcases List.mem_cons.mp hy with rfl | hy2
    · have hx := h x (List.mem_cons_self x xs)
      linarith
    · have h2 : ∀ a ∈ xs, 0 ≤ a := fun a ha => h a (List.mem_cons_of_mem x ha)
      have hx := h x (List.mem_cons_self x xs)
      have := ih h2 (acc + x) y hy2
      linarith

theorem cumsum_sorted {l : List ℚ} (h : ∀ a ∈ l, 0 ≤ a) (acc : ℚ) :
    (cumsum acc l).Sorted (· ≤ ·) := by
  induction l generalizing acc with
  | nil => exact List.sorted_nil
  | cons x xs ih =>
    have h2 : ∀ a ∈ xs, 0 ≤ a := fun a ha => h a (List.mem_cons_of_mem x ha)
    simp only [cumsum]
    exact List.sorted_cons.mpr ⟨le_of_mem_cumsum h2 (acc + x), ih h2 (acc + x)⟩

theorem sorted_getD_lt_iff {l : List ℚ} (hs : l.Sorted (· ≤ ·)) (c : ℚ) :
    ∀ i, i < l.length →
      (l.getD i 0 < c ↔ i < (l.filter fun x => decide (x < c)).length) := by
  induction l with
  | nil =>
    intro i hi
    cases hi
  | cons x xs ih =>
    obtain ⟨hx, hxs⟩ := List.sorted_cons.mp hs
    intro i hi
    by_cases hc : x < c
    · rw [List.filter_cons_of_pos (by simpa using hc)]
      cases i with
      | zero => simpa using hc
      | succ j =>
        rw [List.getD_cons_succ]
        have hj : j < xs.length := by simpa using hi
        rw [ih hxs j hj]
        simp [Nat.succ_lt_succ_iff]
    · have hflt : xs.filter (fun x2 => decide (x2 < c)) = [] := by
        apply List.filter_eq_nil_iff.mpr
        intro a ha
        have h1 : x ≤ a := hx a ha
        have h2 : c ≤ x := not_lt.mp hc
        simp only [decide_eq_true_eq]
        linarith
      rw [List.filter_cons_of_neg (by simpa using hc), hflt]
      simp only [List.length_nil]
      constructor
      · intro hlt
        exfalso
        cases i with
        | zero =>
          rw [List.getD_cons_zero] at hlt
          exact hc hlt
        | succ j =>
          rw [List.getD_cons_succ] at hlt
          have hj : j < xs.length := by simpa using hi
          have hmem : xs.getD j 0 ∈ xs := by
            rw [List.getD_eq_getElem _ _ hj]
            exact List.getElem_mem hj
          have h1 : x ≤ xs.getD j 0 := hx _ hmem
          have h2 : c ≤ x := not_lt.mp hc
          linarith
      · intro hlt
        exact absurd hlt (Nat.not_lt_zero i)

/-! ### Claim theorems -/

/-- C2: for every holdings table whose fraction column sums to `s > 0`,
`normalize_holdings_table` returns a table whose fraction values sum to
exactly `1` (exact rational arithmetic), for every initial value of `s`,
including `s` outside `(0.98, 1.02)`. -/
theorem c2_normalized_fractions_sum_to_one (t : Table) (h : 0 < fractionTotal t) :
    ∃ t2, (normalize_holdings_table t).2 = some t2 ∧ fractionTotal t2 = 1 := by
  have hne : fractionTotal t ≠ 0 := ne_of_gt h
  refine ⟨t.map "fraction" fun f => Value.num (f.toNum * (1 / fractionTotal t)), ?_, ?_⟩
  · simp [normalize_holdings_table, hne]
  · rw [fractionTotal_map_num]
    field_simp

/-- C2 witness: a one-row table whose fraction column sums to `2`
(well outside `(0.98, 1.02)`) is normalized to sum `1`. -/
theorem c2_normalized_fractions_sum_to_one_witness :
    ∃ t2, (normalize_holdings_table ⟨["fraction"], [[Value.num 2]]⟩).2 = some t2 ∧
      fractionTotal t2 = 1 :=
  c2_normalized_fractions_sum_to_one ⟨["fraction"], [[Value.num 2]]⟩
    (by norm_num [fractionTotal, Table.values, colIdx, Value.toNum])

/-- C6: a position row with `number < 0` is skipped entirely when
short-position exclusion is enabled: the loop iteration yields no table
and emits no diagnostic, and the row contributes nothing to the collected
tables. -/
theorem c6_short_skip (fetch : Position → FetchOutcome) (row : Position)
    (rest : List Position) (hneg : row.number < 0) :
    processPosition true fetch row = (RowOutcome.skipped, []) ∧
    collectTables true fetch (row :: rest) = collectTables true fetch rest := by
  have hp : processPosition true fetch row = (RowOutcome.skipped, []) := by
    unfold processPosition
    rw [if_pos ⟨hneg, rfl⟩]
  refine ⟨hp, ?_⟩
  simp only [collectTables, hp]

/-- C6 witness: a concrete short position (`number = -5`) is skipped. -/
theorem c6_short_skip_witness :
    processPosition true (fun _ => FetchOutcome.missingIssuer)
        ⟨"SH", "acct", none, 5, -5⟩ = (RowOutcome.skipped, []) ∧
    collectTables true (fun _ => FetchOutcome.missingIssuer)
        [⟨"SH", "acct", none, 5, -5⟩]
      = collectTables true (fun _ => FetchOutcome.missingIssuer) [] :=
  c6_short_skip (fun _ => FetchOutcome.missingIssuer) ⟨"SH", "acct", none, 5, -5⟩ []
    (by norm_num)

/-- C7: `add_missing_columns` is idempotent: applying it twice yields the
same table as applying it once. -/
theorem c7_add_missing_columns_idempotent (tbl : Table) :
    add_missing_columns (add_missing_columns tbl) = add_missing_columns tbl := by
  unfold add_missing_columns
  exact addCols_noop fun c hc => mem_columns_addCols hc

/-- C8: `add_missing_columns` returns a table in which every identifier
column is present, and each identifier column absent from the input is
populated with the empty-string sentinel in every row. -/
theorem c8_add_missing_columns_fills_ids (tbl : Table) (hwf : tbl.WF) :
    (∀ c ∈ IDCOLUMNS, c ∈ (add_missing_columns tbl).columns) ∧
    (∀ c ∈ IDCOLUMNS, c ∉ tbl.columns →
      ∀ v ∈ (add_missing_columns tbl).values c, v = Value.str "") := by
  constructor
  · intro c hc
    exact mem_columns_addCols hc
  · intro c hc hnot
    exact values_addCols_blank hwf hnot hc

/-- C8 witness: on a concrete parsed table without id column `name`, the
result contains all identifier columns and `name` is all-blank. -/
theorem c8_add_missing_columns_fills_ids_witness :
    (∀ c ∈ IDCOLUMNS,
      c ∈ (add_missing_columns ⟨["fraction", "asstype", "ticker"],
            [[Value.num 1, Value.str "Equity", Value.str "T"]]⟩).columns) ∧
    (∀ v ∈ (add_missing_columns ⟨["fraction", "asstype", "ticker"],
            [[Value.num 1, Value.str "Equity", Value.str "T"]]⟩).values "name",
      v = Value.str "") :=
  ⟨(c8_add_missing_columns_fills_ids _ (by decide)).1,
   (c8_add_missing_columns_fills_ids _ (by decide)).2 "name" (by decide) (by decide)⟩

/-- C9: `normalize_holdings_table` emits its data-quality warning exactly
when the pre-scale fraction total lies outside the open interval
`(0.98, 1.02)`, and (whenever the division does not fail, i.e. the total
is nonzero) the returned table is the `1/total`-rescaled one, in the
warning and non-warning cases alike. -/
theorem c9_normalize_warning_iff (t : Table) :
    ((normalize_holdings_table t).1 ≠ [] ↔
      ¬ (0.98 < fractionTotal t ∧ fractionTotal t < 1.02)) ∧
    (fractionTotal t ≠ 0 →
      (normalize_holdings_table t).2
        = some (t.map "fraction" fun f => Value.num (f.toNum * (1 / fractionTotal t)))) := by
  constructor
  · by_cases h : 0.98 < fractionTotal t ∧ fractionTotal t < 1.02 <;>
      simp [normalize_holdings_table, h]
  · intro h
    simp [normalize_holdings_table, h]

/-- C9 witness: on a table with fraction total `2`, the second conjunct of
the warning theorem applies (the rescaled table is returned). -/
theorem c9_normalize_warning_iff_witness :
    (normalize_holdings_table ⟨["fraction"], [[Value.num 2]]⟩).2
      = some ((⟨["fraction"], [[Value.num 2]]⟩ : Table).map "fraction" fun f =>
          Value.num (f.toNum * (1 / fractionTotal ⟨["fraction"], [[Value.num 2]]⟩))) :=
  (c9_normalize_warning_iff ⟨["fraction"], [[Value.num 2]]⟩).2
    (by norm_num [fractionTotal, Table.values, colIdx, Value.toNum])

/-- C10: for every table whose fraction values sum to exactly zero (an
empty table for example), `normalize_holdings_table` does not return a
table: the unguarded division `1/total` fails (modelled by `none`). -/
theorem c10_zero_total_divzero (t : Table) (h : fractionTotal t = 0) :
    (normalize_holdings_table t).2 = none := by
  simp [normalize_holdings_table, h]

/-- C10 witness: the empty holdings table has fraction total `0` and the
normalization fails with the division-by-zero outcome. -/
theorem c10_zero_total_divzero_witness :
    fractionTotal ⟨["fraction", "asstype", "ticker"], []⟩ = 0 ∧
    (normalize_holdings_table ⟨["fraction", "asstype", "ticker"], []⟩).2 = none :=
  ⟨rfl, c10_zero_total_divzero ⟨["fraction", "asstype", "ticker"], []⟩ rfl⟩

/-- C1 (counterexample): the pipeline driver does not normalize the
parsed holdings table — `normalize_holdings_table` is never invoked in
the loop.  A parsed table whose fractions sum to `1/2`, for a position
with `number = 10`, `price = 5`, contributes `25 = (1/2)·number·price`,
not `number·price = 50`. -/
theorem c1_driver_contribution_counterexample :
    contribution (processPosition false
      (fun _ => FetchOutcome.parsed ⟨["fraction", "asstype", "ticker"],
        [[Value.num (1/2), Value.str "Equity", Value.str "XYZ"]]⟩)
      ⟨"XYZ", "acct", some "Vanguard", 5, 10⟩) = 25 ∧ (25 : ℚ) ≠ 10 * 5 := by
  constructor
  · simp +decide [contribution, processPosition, check_holdings, finishHoldings,
      add_missing_columns, addCols, addIdColumn, Table.create, Table.select,
      Table.delete, Table.values, Table.map, colIdx, syntheticHoldings,
      amountTotal, COLUMNS, IDCOLUMNS, ASSTYPES, isAllowedAsstype, Value.toNum,
      fractionTotal, List.filter]
    norm_num
  · norm_num

/-- C1 (amended): for every position with an issuer whose fetched table
parses, the driver validates the table with `check_holdings` but performs
no normalization, and the position's contribution to the full table is
`s·number·price` where `s` is the raw fraction total. -/
theorem c1_driver_contribution_amended (ignoreShorts : Bool)
    (fetch : Position → FetchOutcome) (row : Position) (iss : String) (h : Table)
    (hwf : h.WF) (hiss : row.issuer = some iss)
    (hshort : ¬ (row.number < 0 ∧ ignoreShorts = true))
    (hfetch : fetch row = FetchOutcome.parsed h) (hchk : check_holdings h = true) :
    processPosition ignoreShorts fetch row
      = (RowOutcome.table (finishHoldings row h), []) ∧
    amountTotal (finishHoldings row h) = fractionTotal h * (row.number * row.price) := by
  constructor
  · simp only [processPosition, if_neg hshort, hiss, hfetch, if_pos hchk]
  · have hmem : "fraction" ∈ h.columns := by
      have h2 := hchk
      simp only [check_holdings, Bool.and_eq_true, decide_eq_true_eq] at h2
      exact h2.1.1.2.2
    exact amountTotal_finishHoldings row h hwf hmem

/-- C1 (amended) witness: the concrete fraction-sum-1/2 table from the
counterexample, processed by the driver, contributes
`fractionTotal·(number·price)`. -/
theorem c1_driver_contribution_amended_witness :
    amountTotal (finishHoldings ⟨"XYZ", "acct", some "Vanguard", 5, 10⟩
        ⟨["fraction", "asstype", "ticker"],
         [[Value.num (1/2), Value.str "Equity", Value.str "XYZ"]]⟩)
      = fractionTotal ⟨["fraction", "asstype", "ticker"],
          [[Value.num (1/2), Value.str "Equity", Value.str "XYZ"]]⟩ * (10 * 5) :=
  (c1_driver_contribution_amended false
    (fun _ => FetchOutcome.parsed ⟨["fraction", "asstype", "ticker"],
      [[Value.num (1/2), Value.str "Equity", Value.str "XYZ"]]⟩)
    ⟨"XYZ", "acct", some "Vanguard", 5, 10⟩ "Vanguard"
    ⟨["fraction", "asstype", "ticker"],
     [[Value.num (1/2), Value.str "Equity", Value.str "XYZ"]]⟩
    (by decide) rfl (by norm_num) rfl (by decide)).2

/-- C4 (counterexample): the truncation keeps a prefix of size
`headsize`, not exactly the rows whose cumulative sum is below the
threshold.  For the (descending, short-containing) aggregated amounts
`[4, -2, -3]` the code keeps one row — row 0 — although row 0's
cumulative sum `4` is not below `0.98·total = -0.98`. -/
theorem c4_truncation_counterexample :
    headsize [4, -2, -3] = 1 ∧
    ¬ ((cumsum 0 [4, -2, -3]).getD 0 0 < ([4, -2, -3] : List ℚ).sum * 0.98) := by
  constructor
  · norm_num [headsize, cumsum, List.filter]
  · norm_num [cumsum]

/-- C4 (amended): the truncation keeps the first `k` rows where `k` is
the number of rows with cumulative sum strictly below `0.98·total`; when
the amounts are nonnegative these are exactly the rows whose cumulative
sum is strictly below the threshold, and for `[500, 300, 150, 50]`
exactly the first 3 rows are kept. -/
theorem c4_truncation_amended :
    (∀ (amounts : List ℚ), (∀ a ∈ amounts, 0 ≤ a) → ∀ i : Nat, i < amounts.length →
      (i < headsize amounts ↔ (cumsum 0 amounts).getD i 0 < amounts.sum * 0.98)) ∧
    headsize [500, 300, 150, 50] = 3 := by
  constructor
  · intro amounts hpos i hi
    unfold headsize
    exact (sorted_getD_lt_iff (cumsum_sorted hpos 0) (amounts.sum * 0.98) i
      (by rw [cumsum_length]; exact hi)).symm
  · norm_num [headsize, cumsum, List.filter]

/-- C4 (amended) witness: for the spec's example amounts the first row is
kept and its cumulative sum is below the threshold. -/
theorem c4_truncation_amended_witness :
    ((0 : Nat) < headsize [500, 300, 150, 50] ↔
      (cumsum 0 [500, 300, 150, 50]).getD 0 0 < ([500, 300, 150, 50] : List ℚ).sum * 0.98) :=
  c4_truncation_amended.1 [500, 300, 150, 50] (by norm_num) 0 (by norm_num)

/-- C5: a position with no issuer is given the synthetic single-row
holdings table `fraction=1, asstype=Equity, ticker=<position ticker>`;
end to end, the position `issuer=none, ticker="ABC", number=10, price=5`
yields exactly one full-table row, with `amount=50`, `asstype=Equity`,
`ticker=ABC` (and blank sentinel identifiers elsewhere). -/
theorem c5_no_issuer_synthetic (ignoreShorts : Bool)
    (fetch : Position → FetchOutcome) (row : Position) (hiss : row.issuer = none)
    (hshort : ¬ (row.number < 0 ∧ ignoreShorts = true)) :
    processPosition ignoreShorts fetch row
      = (RowOutcome.table (finishHoldings row (syntheticHoldings row)), []) ∧
    syntheticHoldings row = ⟨["fraction", "asstype", "ticker"],
      [[Value.num 1, Value.str "Equity", Value.str row.ticker]]⟩ ∧
    (concatTables ((collectTables false (fun _ => FetchOutcome.missingIssuer)
        [⟨"ABC", "acct", none, 5, 10⟩]).getD [])).rows
      = [[Value.str "ABC", Value.str "acct", Value.str "Equity", Value.str "",
          Value.str "ABC", Value.str "", Value.str "", Value.str "", Value.num 50]] := by
  refine ⟨?_, rfl, ?_⟩
  · simp only [processPosition, if_neg hshort, hiss]
  · simp +decide [collectTables, processPosition, concatTables, finishHoldings,
      add_missing_columns, addCols, addIdColumn, Table.create, Table.select,
      Table.delete, Table.values, colIdx, syntheticHoldings, COLUMNS, IDCOLUMNS,
      Value.toNum, List.filter]
    norm_num

/-- C5 witness: the concrete no-issuer position is processed into the
finished synthetic table. -/
theorem c5_no_issuer_synthetic_witness :
    processPosition false (fun _ => FetchOutcome.missingIssuer)
        ⟨"ABC", "acct", none, 5, 10⟩
      = (RowOutcome.table (finishHoldings ⟨"ABC", "acct", none, 5, 10⟩
          (syntheticHoldings ⟨"ABC", "acct", none, 5, 10⟩)), []) :=
  (c5_no_issuer_synthetic false (fun _ => FetchOutcome.missingIssuer)
    ⟨"ABC", "acct", none, 5, 10⟩ rfl (by norm_num)).1

/-- Bridge between the boolean asset-type membership test and the
enumeration of allowed `asstype` cells. -/
theorem isAllowedAsstype_false_iff (v : Value) :
    (¬ isAllowedAsstype v = true) ↔
      v ∉ [Value.str "Equity", Value.str "FixedIncome", Value.str "ShortTerm"] := by
  cases v with
  | str s => simp [isAllowedAsstype, ASSTYPES]
  | num q => simp [isAllowedAsstype]

/-- C3: `check_holdings` fails if and only if (a) some column lies
outside `{asstype, fraction} ∪ IDCOLUMNS`, or (b) `asstype` or `fraction`
is absent, or (c) no identifier column is present, or (d) some `asstype`
value is not one of `Equity`, `FixedIncome`, `ShortTerm` — in particular
it rejects any table with an `asstype` value outside that enumeration. -/
theorem c3_check_holdings_iff (holdings : Table) :
    check_holdings holdings = false ↔
      ((∃ c ∈ holdings.columns, c ∉ "asstype" :: "fraction" :: IDCOLUMNS) ∨
       ("asstype" ∉ holdings.columns ∨ "fraction" ∉ holdings.columns) ∨
       (∀ c ∈ IDCOLUMNS, c ∉ holdings.columns) ∨
       (∃ v ∈ holdings.values "asstype",
          v ∉ [Value.str "Equity", Value.str "FixedIncome", Value.str "ShortTerm"])) := by
  have hA : (¬ ∀ c ∈ holdings.columns, c ∈ "asstype" :: "fraction" :: IDCOLUMNS) ↔
      (∃ c ∈ holdings.columns, c ∉ "asstype" :: "fraction" :: IDCOLUMNS) := by
    constructor
    · intro h
      push_neg at h
      exact h
    · intro h
      push_neg
      exact h
  have hC : (¬ ∃ c ∈ IDCOLUMNS, c ∈ holdings.columns) ↔
      (∀ c ∈ IDCOLUMNS, c ∉ holdings.columns) := by
    constructor
    · intro h
      push_neg at h
      exact h
    · intro h
      push_neg
      exact h
  have hD : (¬ ∀ v ∈ holdings.values "asstype", isAllowedAsstype v = true) ↔
      (∃ v ∈ holdings.values "asstype",
        v ∉ [Value.str "Equity", Value.str "FixedIncome", Value.str "ShortTerm"]) := by
    constructor
    · intro h
      push_neg at h
      obtain ⟨v, hv, hnv⟩ := h
      exact ⟨v, hv, (isAllowedAsstype_false_iff v).mp hnv⟩
    · rintro ⟨v, hv, hnv⟩ hall
      exact (isAllowedAsstype_false_iff v).mpr hnv (hall v hv)
  have hbool : check_holdings holdings = false ↔ ¬ check_holdings holdings = true := by
    simp
  rw [hbool]
  simp only [check_holdings, Bool.and_eq_true, decide_eq_true_eq, List.all_eq_true]
  rw [not_and_or, not_and_or, not_and_or, hA, hC, hD, not_and_or]
  simp only [or_assoc]
